import Mathlib

/-!
# Verification of the markdown-helper/mermaid page-enhancement scripts

Shallow embedding of the client-side asset loader (`loadScript`, `loadCSS`),
the icon-pack fetcher (`fetchIconsJson`), and the ToC sidebar widget
(`ensureIds` slugification, `buildTree`, `setActive`, `computeActive`) from
`src/icons.js` and the sidebar ToC script, together with proofs of the
behavioural properties stated for them.

Conventions of the embedding:
* DOM state is made explicit: the document head is a list of element records,
  the per-URL loader table is an `Option` entry, callbacks are identified by
  natural numbers and "invoking" a callback appends its id to a log.
* URL canonicalisation (`new URL(src, document.baseURI).href`) happens before
  every comparison in the source; the embedding therefore works directly with
  the canonical absolute URL string.
* JS strings are modelled as `String` where only equality and per-character
  ASCII classification matter, and as `List Nat` of code points for the
  slugify pipeline where character classes drive the computation.
-/

namespace MermaidHelper

/-! ## Asset loader: `loadScript` (src/icons.js, lines 33–118)

`loadedScripts[key]` holds `{ element, callbacks }` for a canonical URL `key`.
The embedding fixes one canonical URL and tracks its entry, the number of
`<script>` elements appended to `document.head` for it, the `callback`
argument captured by the created element's `load` handler, the callbacks
handed to `setTimeout(cb, 0)`, and the callbacks invoked so far.
A callback argument is `Option Nat`: `none` models an absent / non-function
`callback` argument, `some i` the i-th caller's function. -/

/-- The `{ element: ..., callbacks: [...] }` bucket stored in
`loadedScripts[key]`. `element = true` models a non-null element reference. -/
structure ScriptEntry where
  element : Bool
  callbacks : List Nat
  deriving Repr, DecidableEq

/-- Loader state for one canonical URL plus the observable event log. -/
structure LoadState where
  /-- `loadedScripts[key]`; `none` models the key being absent. -/
  entry : Option ScriptEntry
  /-- number of `<script>` elements created and appended to `document.head`
  for this URL. -/
  appendCount : Nat
  /-- the `callback` argument captured by the created element's `onLoad`
  closure (invoked first on `load`, before the queue is drained). -/
  firstCallback : Option Nat
  /-- callbacks passed to `setTimeout(cb, 0)` (scheduled, not yet run). -/
  scheduled : List Nat
  /-- callbacks invoked so far, in invocation order. -/
  invoked : List Nat
  /-- number of `console.error` calls. -/
  errorsLogged : Nat
  deriving Repr, DecidableEq

/-- The state before any `loadScript` call touches this URL. -/
def initialLoadState : LoadState :=
  { entry := none, appendCount := 0, firstCallback := none,
    scheduled := [], invoked := [], errorsLogged := 0 }

/-- One `loadScript(src, callback, checkVariable)` call for the fixed
canonical URL (src/icons.js lines 33–118).

* `globalBound` models `checkVariable && window[checkVariable]` being truthy;
* `existingInDom` models steps 3's DOM query finding a pre-existing
  `<script>` element for this URL (by id or by normalized src);
* `cb` is the `callback` argument (`none` when absent or not a function).

Step order mirrors the source: ensure the state bucket, then (1) the global
short-circuit via `setTimeout`, (2) queueing while the element is loading,
(3) adopting a pre-existing DOM element (queueing the callback on its `load`
event), (4) creating, wiring and appending a fresh element. -/
def loadScript (globalBound existingInDom : Bool) (st : LoadState)
    (cb : Option Nat) : LoadState :=
  let e := st.entry.getD { element := false, callbacks := [] }
  let st := { st with entry := some e }
  if globalBound then
    { st with scheduled := st.scheduled ++ cb.toList }
  else if e.element then
    { st with entry := some { e with callbacks := e.callbacks ++ cb.toList } }
  else if existingInDom then
    { st with entry := some { element := true,
                              callbacks := e.callbacks ++ cb.toList } }
  else
    { st with entry := some { element := true, callbacks := e.callbacks },
              appendCount := st.appendCount + 1,
              firstCallback := cb }

/-- The created element's `load` event: `onLoad` invokes the captured
`callback`, then splices the queue and invokes every queued callback in
FIFO order (src/icons.js lines 102–106). -/
def fireLoad (st : LoadState) : LoadState :=
  let e := st.entry.getD { element := false, callbacks := [] }
  { st with invoked := st.invoked ++ st.firstCallback.toList ++ e.callbacks,
            entry := some { e with callbacks := [] } }

/-- The created element's `error` event: `onError` logs the error and clears
the queue without invoking anything (src/icons.js lines 108–111). -/
def fireError (st : LoadState) : LoadState :=
  let e := st.entry.getD { element := false, callbacks := [] }
  { st with errorsLogged := st.errorsLogged + 1,
            entry := some { e with callbacks := [] } }

/-- A burst of `loadScript` calls for the same canonical URL, none taking the
`checkVariable` short-circuit, against a DOM with no pre-existing element. -/
def runCalls (st : LoadState) (cbs : List (Option Nat)) : LoadState :=
  cbs.foldl (loadScript false false) st

/-- The queue of the current entry (empty when the key is absent). -/
def LoadState.queue (st : LoadState) : List Nat :=
  (st.entry.getD { element := false, callbacks := [] }).callbacks

theorem runCalls_cons (st : LoadState) (cb : Option Nat)
    (cbs : List (Option Nat)) :
    runCalls st (cb :: cbs) = runCalls (loadScript false false st cb) cbs := rfl

/-- After the first call created the element, every further call only appends
to the callback queue. -/
theorem runCalls_loading (cbs : List (Option Nat)) (q : List Nat)
    (a : Nat) (f : Option Nat) (s inv : List Nat) (er : Nat) :
    runCalls { entry := some { element := true, callbacks := q },
               appendCount := a, firstCallback := f, scheduled := s,
               invoked := inv, errorsLogged := er } cbs
      = { entry := some { element := true,
                          callbacks := q ++ cbs.flatMap Option.toList },
          appendCount := a, firstCallback := f, scheduled := s,
          invoked := inv, errorsLogged := er } := by
  induction cbs generalizing q with
  | nil => simp [runCalls]
  | cons cb cbs ih =>
      rw [runCalls_cons]
      show runCalls
        { entry := some { element := true, callbacks := q ++ cb.toList },
          appendCount := a, firstCallback := f, scheduled := s,
          invoked := inv, errorsLogged := er } cbs = _
      rw [ih]
      simp

/-- C1: a burst of same-URL `loadScript` calls while loading creates and
appends exactly one `<script>` element, and on `load` every caller's callback
runs exactly once, the initiating caller first, then the queued ones FIFO. -/
theorem claim1_loadScript_dedup_fifo (cb : Option Nat)
    (cbs : List (Option Nat)) :
    (fireLoad (runCalls initialLoadState (cb :: cbs))).appendCount = 1 ∧
    (fireLoad (runCalls initialLoadState (cb :: cbs))).invoked
      = cb.toList ++ cbs.flatMap Option.toList := by
  have hfirst : loadScript false false initialLoadState cb
      = { entry := some { element := true, callbacks := [] },
          appendCount := 1, firstCallback := cb, scheduled := [],
          invoked := [], errorsLogged := 0 } := rfl
  rw [runCalls_cons, hfirst, runCalls_loading]
  simp [fireLoad]

/-- C4: when the checked global is already bound on `window`, `loadScript`
creates no element, invokes nothing synchronously, and only schedules the
callback via `setTimeout(cb, 0)` for a later event-loop turn. -/
theorem claim4_checkVariable_short_circuit (existingInDom : Bool)
    (st : LoadState) (cb : Option Nat) :
    (loadScript true existingInDom st cb).appendCount = st.appendCount ∧
    (loadScript true existingInDom st cb).invoked = st.invoked ∧
    (loadScript true existingInDom st cb).scheduled
      = st.scheduled ++ cb.toList := by
  simp [loadScript]

/-- C5: the `error` event logs an error and clears the pending callback queue
without invoking any queued callback; even a subsequent `load` event can only
invoke the captured initiating callback, never a formerly queued one. -/
theorem claim5_onError_drops_queue (st : LoadState) :
    (fireError st).errorsLogged = st.errorsLogged + 1 ∧
    (fireError st).invoked = st.invoked ∧
    (fireError st).queue = [] ∧
    (fireLoad (fireError st)).invoked = st.invoked ++ st.firstCallback.toList := by
  refine ⟨rfl, rfl, ?_, ?_⟩ <;> simp [fireError, fireLoad, LoadState.queue]

/-! ## Stylesheet loader: `loadCSS` (src/icons.js, lines 132–150)

The document head is modelled as the list of `link[rel="stylesheet"]`
elements, each with its `id` and its (browser-normalized) `href`. The source
canonicalizes the argument with `new URL(url, document.baseURI).href` before
every comparison, so the embedding receives the canonical absolute URL. -/

/-- A `<link rel="stylesheet">` element in the document head. -/
structure LinkEl where
  id : String
  href : String
  deriving Repr, DecidableEq

/-- `` absHref.replace(/[^a-zA-Z0-9]/g, '-') ``: every character that is not
an ASCII letter or digit becomes a hyphen. -/
def sanitizeId (s : String) : String :=
  ⟨s.data.map (fun c => if c.isAlphanum then c else '-')⟩

/-- The generated element id `` `css-loader-${absHref.replace(...)}` ``. -/
def linkIdFor (absHref : String) : String :=
  "css-loader-" ++ sanitizeId absHref

/-- `loadCSS(url)` after canonicalisation (src/icons.js lines 132–150):
skip when the generated id already exists, when a stylesheet link with the
identical normalized href exists (attribute selector), or when any existing
stylesheet link's `href` property resolves to the same absolute href;
otherwise append a fresh link element to the head. -/
def loadCSS (head : List LinkEl) (absHref : String) : List LinkEl :=
  let linkId := linkIdFor absHref
  if head.any (fun l => l.id = linkId) then head
  else if head.any (fun l => l.href = absHref) then head
  else if head.any (fun l => l.href = absHref) then head
  else head ++ [{ id := linkId, href := absHref }]

/-- C8: `loadCSS` is idempotent on the document head: calling it twice with
the same canonical URL leaves exactly one matching stylesheet link when none
was present before, and the second call performs no DOM mutation at all. -/
theorem claim8_loadCSS_idempotent (head : List LinkEl) (absHref : String)
    (hid : head.all (fun l => l.id ≠ linkIdFor absHref))
    (hhref : head.all (fun l => l.href ≠ absHref)) :
    loadCSS (loadCSS head absHref) absHref = loadCSS head absHref ∧
    ((loadCSS (loadCSS head absHref) absHref).filter
        (fun l => l.href = absHref)).length = 1 := by
  simp only [List.all_eq_true, decide_eq_true_eq] at hid hhref
  have h1 : loadCSS head absHref
      = head ++ [{ id := linkIdFor absHref, href := absHref }] := by
    unfold loadCSS
    rw [if_neg, if_neg, if_neg] <;>
      simp only [List.any_eq_true, decide_eq_true_eq, not_exists, not_and] <;>
      intro l hl <;> first | exact hid l hl | exact hhref l hl
  have h2 : loadCSS (head ++ [{ id := linkIdFor absHref, href := absHref }])
      absHref = head ++ [{ id := linkIdFor absHref, href := absHref }] := by
    unfold loadCSS
    rw [if_pos]
    simp
  constructor
  · rw [h1, h2]
  · rw [h1, h2, List.filter_append]
    have hf : head.filter (fun l => l.href = absHref) = [] := by
      rw [List.filter_eq_nil_iff]
      intro l hl
      simpa using hhref l hl
    simp [hf]

/-- C8 witness: both conclusions at the empty head and a concrete URL. -/
theorem claim8_loadCSS_idempotent_witness :
    loadCSS (loadCSS [] "https://e.co/s.css") "https://e.co/s.css"
        = loadCSS [] "https://e.co/s.css" ∧
    ((loadCSS (loadCSS [] "https://e.co/s.css") "https://e.co/s.css").filter
        (fun l => l.href = "https://e.co/s.css")).length = 1 :=
  claim8_loadCSS_idempotent [] "https://e.co/s.css" (by decide) (by decide)

/-- C10: two distinct canonical URLs that differ only in non-alphanumeric
characters sanitize to the same generated id, so loading the first and then
the second inserts a link only for the first; the second stylesheet is
silently skipped. -/
theorem claim10_sanitize_collision :
    "https://e.co/a-b.css" ≠ "https://e.co/a.b.css" ∧
    linkIdFor "https://e.co/a-b.css" = linkIdFor "https://e.co/a.b.css" ∧
    loadCSS (loadCSS [] "https://e.co/a-b.css") "https://e.co/a.b.css"
      = [{ id := linkIdFor "https://e.co/a-b.css",
           href := "https://e.co/a-b.css" }] := by
  refine ⟨by decide, by decide, ?_⟩
  decide

/-! ## Icon-pack fetcher: `fetchIconsJson` (src/icons.js, lines 238–267)

The network is modelled as a function from URL to outcome: the `fetch` call
may reject, resolve with a non-ok response, resolve ok but with a payload
whose `res.json()` rejects, or deliver a JSON payload. The per-package
promise cache (`iconsJsonCache`) only memoizes the very promise being
described and cannot change its settled value, so the embedding describes
one uncached evaluation. The settled value is a total function: the source
attaches a final `.catch` that converts any rejection into `{}` plus a
`console.error`, so the promise always fulfills. -/

/-- Outcome of `fetch(url)` followed by `res.json()` for one candidate URL. -/
inductive FetchOutcome where
  /-- `fetch` rejected (network error). -/
  | reject
  /-- response arrived with `res.ok` false. -/
  | notOk
  /-- response ok but `res.json()` rejected. -/
  | badJson
  /-- response ok with a parsed JSON payload. -/
  | ok (payload : Nat)
  deriving Repr, DecidableEq

/-- The fulfilled value of the `fetchIconsJson` promise: `none` models the
empty payload `{}`, `some v` a fetched `icons.json` payload. -/
abbrev IconsPayload := Option Nat

/-- The candidate URL list built from the version candidates:
`` v ? `https://cdn.jsdelivr.net/npm/${pkg}@${v}/icons.json`
  : `https://cdn.jsdelivr.net/npm/${pkg}/icons.json` ``
(src/icons.js lines 242–246; the empty string is JS-falsy). -/
def candidateUrls (pkg : String) (versionCandidates : List String) :
    List String :=
  versionCandidates.map (fun v =>
    if v ≠ "" then
      "https://cdn.jsdelivr.net/npm/" ++ pkg ++ "@" ++ v ++ "/icons.json"
    else
      "https://cdn.jsdelivr.net/npm/" ++ pkg ++ "/icons.json")

/-- The `for (const url of urls)` loop body (src/icons.js lines 249–258):
return the first successfully parsed payload, skipping rejected fetches,
non-ok responses and bad JSON; throw when every candidate is exhausted. -/
def tryCandidates (env : String → FetchOutcome) :
    List String → Except String Nat
  | [] => .error "Unable to fetch icons.json"
  | url :: rest =>
    match env url with
    | .ok payload => .ok payload
    | _ => tryCandidates env rest

/-- `fetchIconsJson(pkg, versionCandidates)` settled outcome: the fulfilled
payload together with whether `console.error` fired. The final `.catch`
(src/icons.js lines 259–263) turns the loop's failure into a logged error
and the empty payload `{}`. -/
def fetchIconsJson (env : String → FetchOutcome) (pkg : String)
    (versionCandidates : List String) : IconsPayload × Bool :=
  match tryCandidates env (candidateUrls pkg versionCandidates) with
  | .ok payload => (some payload, false)
  | .error _ => (none, true)

/-- C6: when every candidate URL fails (fetch rejects, response not ok, or
its JSON cannot be parsed), the promise fulfills with the empty payload and
an error is logged; fulfillment (never rejection) is immediate from the
total return type. -/
theorem claim6_fetchIconsJson_all_fail (env : String → FetchOutcome)
    (pkg : String) (versionCandidates : List String)
    (hfail : ∀ url ∈ candidateUrls pkg versionCandidates,
        ∀ payload, env url ≠ .ok payload) :
    fetchIconsJson env pkg versionCandidates = (none, true) := by
  unfold fetchIconsJson
  have herr : tryCandidates env (candidateUrls pkg versionCandidates)
      = .error "Unable to fetch icons.json" := by
    generalize hu : candidateUrls pkg versionCandidates = urls at hfail
    clear hu
    induction urls with
    | nil => rfl
    | cons url rest ih =>
        have hurl := hfail url (List.mem_cons_self url rest)
        cases h : env url with
        | ok payload => exact absurd h (hurl payload)
        | reject =>
            simpa [tryCandidates, h] using
              ih (fun u hu p => hfail u (List.mem_cons_of_mem url hu) p)
        | notOk =>
            simpa [tryCandidates, h] using
              ih (fun u hu p => hfail u (List.mem_cons_of_mem url hu) p)
        | badJson =>
            simpa [tryCandidates, h] using
              ih (fun u hu p => hfail u (List.mem_cons_of_mem url hu) p)
  rw [herr]

/-- C6 witness: a network where every request rejects, at the default
stability-first candidate list of the `logos` pack. -/
theorem claim6_fetchIconsJson_all_fail_witness :
    fetchIconsJson (fun _ => .reject) "@iconify-json/logos" ["1", "2", ""]
      = (none, true) :=
  claim6_fetchIconsJson_all_fail (fun _ => .reject) "@iconify-json/logos"
    ["1", "2", ""] (fun _ _ _ h => FetchOutcome.noConfusion h)

/-! ## ToC `ensureIds` slugification (toc sidebar script, lines 14–25)

`text.toLowerCase().replace(/\s+/g, '-').replace(/[^\w\-]+/g, '')`.
Strings are modelled as lists of Unicode code points so the regex character
classes become decidable predicates on `Nat`: `\s` is the JS whitespace
class, `\w` is `[A-Za-z0-9_]`, and `toLowerCase` lowercases the ASCII
uppercase range (the only case mapping that can survive the final `\w`
filter). -/

/-- ASCII uppercase letter, the domain of the relevant case mapping. -/
def isUpperCode (n : Nat) : Bool := 65 ≤ n && n ≤ 90

/-- `toLowerCase` on a code point: map `A`–`Z` to `a`–`z`. -/
def toLowerCode (n : Nat) : Nat := if isUpperCode n then n + 32 else n

/-- The JS regex `\s` class: tab, LF, VT, FF, CR, space, NBSP, and the
Unicode space separators, line/paragraph separators, and BOM. -/
def isWsCode (n : Nat) : Bool :=
  n = 9 || n = 10 || n = 11 || n = 12 || n = 13 || n = 32 || n = 160 ||
  n = 5760 || (8192 ≤ n && n ≤ 8202) || n = 8232 || n = 8233 ||
  n = 8239 || n = 8287 || n = 12288 || n = 65279

/-- The JS regex `\w` class `[A-Za-z0-9_]`. -/
def isWordCode (n : Nat) : Bool :=
  isUpperCode n || (97 ≤ n && n ≤ 122) || (48 ≤ n && n ≤ 57) || n = 95

/-- `.replace(/\s+/g, '-')`: each maximal whitespace run becomes one hyphen
(code point 45). `prevWs` records whether the previous character belonged to
a run whose hyphen was already emitted. -/
def collapseWs (prevWs : Bool) : List Nat → List Nat
  | [] => []
  | c :: cs =>
    if isWsCode c then
      (if prevWs then [] else [45]) ++ collapseWs true cs
    else
      c :: collapseWs false cs

/-- `.replace(/[^\w\-]+/g, '')`: drop everything that is neither a word
character nor a hyphen. -/
def stripNonWord (l : List Nat) : List Nat :=
  l.filter (fun c => isWordCode c || c = 45)

/-- The id computed for a heading without one (toc sidebar script,
lines 18–20): lowercase, collapse whitespace to hyphens, strip the rest. -/
def slugify (l : List Nat) : List Nat :=
  stripNonWord (collapseWs false (l.map toLowerCode))

/-- Code points that `slugify` can emit: word characters or hyphens, never
uppercase (hence fixed by the case mapping) and never whitespace. -/
def slugSafe (n : Nat) : Bool :=
  (isWordCode n || n = 45) && !isUpperCode n

theorem slugSafe_not_ws {n : Nat} (h : slugSafe n = true) :
    isWsCode n = false := by
  simp only [slugSafe, isWordCode, isUpperCode, Bool.and_eq_true,
    Bool.or_eq_true, Bool.not_eq_true', Bool.and_eq_false_iff,
    decide_eq_true_eq, decide_eq_false_iff_not, not_le] at h
  simp only [isWsCode, Bool.or_eq_false_iff, Bool.and_eq_false_iff,
    decide_eq_false_iff_not, not_le]
  omega

theorem slugSafe_toLower_fixed {n : Nat} (h : slugSafe n = true) :
    toLowerCode n = n := by
  simp only [slugSafe, Bool.and_eq_true, Bool.not_eq_true'] at h
  simp [toLowerCode, h.2]

theorem toLowerCode_not_upper (n : Nat) :
    isUpperCode (toLowerCode n) = false := by
  simp only [toLowerCode, isUpperCode]
  split <;> rename_i h <;>
    simp only [isUpperCode, Bool.and_eq_true, decide_eq_true_eq] at * <;>
    · simp only [Bool.and_eq_false_iff, decide_eq_false_iff_not, not_le]
      omega

/-- Every code point produced by `collapseWs` is a hyphen or comes from the
input. -/
theorem mem_collapseWs {c : Nat} :
    ∀ (b : Bool) (l : List Nat), c ∈ collapseWs b l → c = 45 ∨ c ∈ l := by
  intro b l
  induction l generalizing b with
  | nil => intro h; exact absurd h (by simp [collapseWs])
  | cons d ds ih =>
      intro h
      by_cases hws : isWsCode d = true
      · simp only [collapseWs, hws, if_true] at h
        rcases List.mem_append.mp h with h | h
        · cases b
          · left
            simpa using h
          · simp at h
        · rcases ih true h with h | h
          · exact Or.inl h
          · exact Or.inr (List.mem_cons_of_mem d h)
      · simp only [collapseWs, hws, if_false, Bool.false_eq_true,
          List.mem_cons] at h
        rcases h with rfl | h
        · exact Or.inr (List.mem_cons_self c ds)
        · rcases ih false h with h | h
          · exact Or.inl h
          · exact Or.inr (List.mem_cons_of_mem d h)

/-- Everything `slugify` outputs is slug-safe. -/
theorem slugify_mem_safe {c : Nat} {l : List Nat} (h : c ∈ slugify l) :
    slugSafe c = true := by
  unfold slugify stripNonWord at h
  have hword := List.of_mem_filter h
  have hmem := List.mem_of_mem_filter h
  rcases mem_collapseWs false _ hmem with rfl | hmem
  · simp [slugSafe, isUpperCode]
  · rcases List.mem_map.mp hmem with ⟨d, _, rfl⟩
    simp only [slugSafe, Bool.and_eq_true, Bool.not_eq_true']
    exact ⟨by simpa using hword, toLowerCode_not_upper d⟩

/-- `collapseWs` is the identity on whitespace-free input. -/
theorem collapseWs_eq_self {l : List Nat}
    (h : ∀ c ∈ l, isWsCode c = false) (b : Bool) : collapseWs b l = l := by
  induction l generalizing b with
  | nil => rfl
  | cons d ds ih =>
      have hd := h d (List.mem_cons_self d ds)
      simp only [collapseWs, hd, Bool.false_eq_true, if_false]
      exact congrArg (d :: ·) (ih (fun c hc => h c (List.mem_cons_of_mem d hc)) false)

/-- `slugify` is the identity on slug-safe strings. -/
theorem slugify_eq_self {l : List Nat} (h : ∀ c ∈ l, slugSafe c = true) :
    slugify l = l := by
  unfold slugify
  have hmap : ∀ m : List Nat, (∀ c ∈ m, toLowerCode c = c) →
      m.map toLowerCode = m := by
    intro m
    induction m with
    | nil => intro _; rfl
    | cons d ds ih =>
        intro hm
        simp only [List.map_cons]
        rw [hm d (List.mem_cons_self d ds),
          ih (fun c hc => hm c (List.mem_cons_of_mem d hc))]
  rw [hmap l (fun c hc => slugSafe_toLower_fixed (h c hc)),
    collapseWs_eq_self (fun c hc => slugSafe_not_ws (h c hc)) false]
  unfold stripNonWord
  rw [List.filter_eq_self]
  intro c hc
  have := h c hc
  simp only [slugSafe, Bool.and_eq_true] at this
  simpa using this.1

/-- C7: the `ensureIds` slug transformation (lowercase, collapse whitespace
runs to hyphens, strip characters that are neither word characters nor
hyphens) is idempotent: applied to its own output it returns it unchanged. -/
theorem claim7_slugify_idempotent (l : List Nat) :
    slugify (slugify l) = slugify l :=
  slugify_eq_self (fun _ hc => slugify_mem_safe hc)

/-! ## Scroll highlighter (toc sidebar script, lines 115–160)

A heading is its `offsetTop` together with its `id`; the ToC DOM is a list
of anchor elements, each with its `href` and whether it carries the
`active` class. JS falsiness of the `active` variable matters in two places
(`!active` and `if (id)`), where both `null` and the empty string count as
false. -/

/-- A document heading as seen by the highlighter. -/
structure SHeading where
  offsetTop : Int
  id : String
  deriving Repr, DecidableEq

/-- JS falsiness for the highlighter's `active` value: `null` or `''`. -/
def jsFalsy : Option String → Bool
  | none => true
  | some s => decide (s = "")

/-- The `for` loop of `computeActive` (toc sidebar script, lines 133–140):
walk the headings in order, remembering the id of the last heading with
`offsetTop <= scrollPos + 10`, and `break` at the first heading past that
line. `none` means the loop's `active` variable was left untouched. -/
def scanActive (sp : Int) : List SHeading → Option String
  | [] => none
  | h :: t =>
    if h.offsetTop ≤ sp + 10 then
      match scanActive sp t with
      | some a => some a
      | none => some h.id
    else none

/-- `computeActive` (toc sidebar script, lines 129–144): run the scan, then
`if (!active && headings.length) active = headings[0].id`. -/
def computeActive (headings : List SHeading) (sp : Int) : Option String :=
  let active := scanActive sp headings
  if jsFalsy active then
    match headings with
    | [] => active
    | h :: _ => some h.id
  else active

/-- The claim's selection rule, stated in its own words: the identifier of
the last heading (in document order) whose vertical offset is at or above
`scrollPos + tolerance`, defaulting to the first heading when none
qualifies. Used as the comparison point for `computeActive`. -/
def specActive (headings : List SHeading) (sp : Int) : Option String :=
  match (headings.filter (fun h => h.offsetTop ≤ sp + 10)).getLast? with
  | some h => some h.id
  | none => headings.head?.map (fun h => h.id)

/-- On offset-sorted heading lists the loop's early `break` is harmless:
the scan returns exactly the last qualifying heading overall. -/
theorem scanActive_eq_getLast (sp : Int) (hs : List SHeading)
    (hsorted : hs.Pairwise (fun a b => a.offsetTop ≤ b.offsetTop)) :
    scanActive sp hs
      = ((hs.filter (fun h => h.offsetTop ≤ sp + 10)).getLast?).map
          (fun h => h.id) := by
  induction hs with
  | nil => rfl
  | cons h t ih =>
      rcases List.pairwise_cons.mp hsorted with ⟨hrel, ht⟩
      by_cases hq : h.offsetTop ≤ sp + 10
      · have hfil : (h :: t).filter (fun x => x.offsetTop ≤ sp + 10)
            = h :: t.filter (fun x => x.offsetTop ≤ sp + 10) := by
          simp [List.filter_cons, hq]
        rw [hfil]
        cases hft : t.filter (fun x => x.offsetTop ≤ sp + 10) with
        | nil =>
            have hscan : scanActive sp t = none := by
              rw [ih ht, hft]; rfl
            simp [scanActive, hq, hscan]
        | cons x xs =>
            have hscan : scanActive sp t = ((x :: xs).getLast?).map
                (fun h => h.id) := by rw [ih ht, hft]
            rw [List.getLast?_cons_cons]
            cases hlast : (x :: xs).getLast? with
            | none => simp at hlast
            | some y =>
                rw [hlast] at hscan
                simp [scanActive, hq, hscan]
      · have hfil : (h :: t).filter (fun x => x.offsetTop ≤ sp + 10)
            = t.filter (fun x => x.offsetTop ≤ sp + 10) := by
          simp [List.filter_cons, hq]
        have hnone : t.filter (fun x => x.offsetTop ≤ sp + 10) = [] := by
          rw [List.filter_eq_nil_iff]
          intro x hx
          have := hrel x hx
          simp only [decide_eq_true_eq]
          omega
        rw [hfil, hnone]
        simp [scanActive, hq]

/-- The example headings of the claim: offsets 0, 500 and 1200. -/
def exampleHeadings : List SHeading :=
  [{ offsetTop := 0, id := "intro" },
   { offsetTop := 500, id := "middle" },
   { offsetTop := 1200, id := "end-note" }]

/-- C3 counterexample: with headings whose offsets are not monotone in
document order (offsets 100 then 50) and scroll position 60, the code's
early `break` selects the fallback first heading, not the last heading
whose offset is at or above `scrollPos + tolerance` as the claim states. -/
theorem claim3_counterexample :
    computeActive [{ offsetTop := 100, id := "a" },
                   { offsetTop := 50, id := "b" }] 60
      ≠ specActive [{ offsetTop := 100, id := "a" },
                    { offsetTop := 50, id := "b" }] 60 := by
  decide

/-- C3 (amended): for headings whose offsets are nondecreasing in document
order and whose identifiers are nonempty, every evaluation selects the last
heading whose offset is at or above `scrollPos + tolerance`, defaulting to
the first heading; concretely, on offsets `[0, 500, 1200]` scroll 600
selects the heading at 500, scroll 0 the heading at 0, and scroll past the
last heading the heading at 1200. -/
theorem claim3_computeActive_selection :
    (∀ (headings : List SHeading) (sp : Int),
        headings.Pairwise (fun a b => a.offsetTop ≤ b.offsetTop) →
        (∀ h ∈ headings, h.id ≠ "") →
        computeActive headings sp = specActive headings sp) ∧
    computeActive exampleHeadings 600 = some "middle" ∧
    computeActive exampleHeadings 0 = some "intro" ∧
    computeActive exampleHeadings 5000 = some "end-note" := by
  refine ⟨?_, by decide, by decide, by decide⟩
  intro headings sp hsorted hids
  unfold computeActive specActive
  rw [scanActive_eq_getLast sp headings hsorted]
  cases hlast : (headings.filter (fun h => h.offsetTop ≤ sp + 10)).getLast?
      with
  | none =>
      cases headings with
      | nil => rfl
      | cons h t => simp [jsFalsy]
  | some x =>
      have hx : x ∈ headings := by
        have hmem : x ∈ (headings.filter
            (fun h => h.offsetTop ≤ sp + 10)).getLast? := by
          rw [hlast]; rfl
        rcases List.mem_getLast?_eq_getLast hmem with ⟨hne, rfl⟩
        exact List.mem_of_mem_filter (List.getLast_mem hne)
      have hid : x.id ≠ "" := hids x hx
      simp [jsFalsy, hid]

/-- C3 witness: the amended selection rule applied to the claim's own
example list, whose offsets are sorted and ids nonempty. -/
theorem claim3_computeActive_selection_witness :
    computeActive exampleHeadings 600 = specActive exampleHeadings 600 :=
  claim3_computeActive_selection.1 exampleHeadings 600 (by decide) (by decide)

/-! ## `setActive` DOM frame property (toc sidebar script, lines 118–127) -/

/-- A ToC anchor element: its `href` attribute and whether it currently
carries the `active` class. -/
structure TocLink where
  href : String
  active : Bool
  deriving Repr, DecidableEq

/-- The highlighter's state: the ToC anchors and the `lastActiveId`
variable captured by the closure (`null` initially). -/
structure HighlightState where
  links : List TocLink
  lastActiveId : Option String
  deriving Repr, DecidableEq

/-- `setActive(id)` (toc sidebar script, lines 118–127): return untouched
when `lastActiveId === id`; otherwise remove the `active` class everywhere,
add it to every anchor whose `href` is `'#' + id` when `id` is truthy, and
store `id` in `lastActiveId`. -/
def setActive (st : HighlightState) (id : Option String) : HighlightState :=
  if st.lastActiveId = id then st
  else
    let cleared := st.links.map (fun l => { l with active := false })
    let marked :=
      match id with
      | some i =>
          if i = "" then cleared
          else cleared.map (fun l =>
            if l.href = "#" ++ i then { l with active := true } else l)
      | none => cleared
    { links := marked, lastActiveId := id }

/-- C9: `setActive` mutates nothing (neither the ToC DOM nor the stored id)
when the computed identifier equals the previously stored one. -/
theorem claim9_setActive_frame (st : HighlightState) (id : Option String)
    (h : st.lastActiveId = id) : setActive st id = st := by
  simp [setActive, h]

/-- C9 witness: a concrete state whose stored id equals the computed one. -/
theorem claim9_setActive_frame_witness :
    setActive { links := [{ href := "#intro", active := true }],
                lastActiveId := some "intro" } (some "intro")
      = { links := [{ href := "#intro", active := true }],
          lastActiveId := some "intro" } :=
  claim9_setActive_frame
    { links := [{ href := "#intro", active := true }],
      lastActiveId := some "intro" } (some "intro") rfl

/-! ## ToC tree building: `buildTree` (toc sidebar script, lines 27–38)

The source pushes each heading's node into the children array of the node on
top of the stack (after popping every node with level `>= level`) and keeps
the node itself on the stack; children arrays are mutated in place. The
embedding makes the sharing explicit with a stack of *frames*: a frame is a
node whose children list is still growing. Popping a frame closes it into a
finished `TocNode` appended to the children of the frame below — the same
position the source gave it at push time, since siblings close in creation
order. The bottom frame is the artificial root `{ children: [], level: 0 }`,
which the source never pops because every heading level is at least 1. -/

/-- A finished ToC tree node `{ level, text, id, children }`. -/
inductive TocNode : Type where
  | node (level : Nat) (text : String) (id : String)
      (children : List TocNode) : TocNode
  deriving Repr

/-- A heading element as consumed by `buildTree`: its tag name, its text
content and its (already ensured) id. -/
structure Heading where
  tag : String
  textContent : String
  id : String
  deriving Repr, DecidableEq

/-- The `LEVELS` table: `{ H1: 1, ..., H6: 6 }`. -/
def LEVELS (tag : String) : Option Nat :=
  if tag = "H1" then some 1
  else if tag = "H2" then some 2
  else if tag = "H3" then some 3
  else if tag = "H4" then some 4
  else if tag = "H5" then some 5
  else if tag = "H6" then some 6
  else none

/-- `LEVELS[h.tagName] || 6`. -/
def levelOf (tag : String) : Nat := (LEVELS tag).getD 6

/-- A stack frame: a node still open for children. -/
structure Frame where
  level : Nat
  text : String
  id : String
  children : List TocNode
  deriving Repr

/-- Close the finished top frame `f` into the frame `g` below it: `f`
becomes the next child of `g`. -/
def closeInto (f g : Frame) : Frame :=
  { g with children := g.children ++ [.node f.level f.text f.id f.children] }

/-- Pop loop with the current top frame held apart: close `f` into the
next frame as long as `lvl ≤ f.level` and frames remain below. -/
def popToAux (lvl : Nat) (f : Frame) : List Frame → List Frame
  | [] => [f]
  | g :: rest =>
    if lvl ≤ f.level then popToAux lvl (closeInto f g) rest
    else f :: g :: rest

/-- `while (stack.length && stack[stack.length - 1].level >= level)
stack.pop()`. The bottom frame is never popped: in the source the guard
`stack.length` only matters for the (unreachable) empty stack, and popping
the root would crash the subsequent `children.push`; every run keeps the
level-0 root below every heading level. -/
def popTo (lvl : Nat) : List Frame → List Frame
  | [] => []
  | f :: rest => popToAux lvl f rest

/-- One iteration of the `headings.forEach` body: pop to the insertion
point, then push the new node (open frame) for this heading. -/
def pushHeading (stack : List Frame) (h : Heading) : List Frame :=
  { level := levelOf h.tag, text := h.textContent.trim, id := h.id,
    children := [] } :: popTo (levelOf h.tag) stack

/-- After the loop the remaining open frames close top-down into the frame
below; the source needs no such phase only because its children arrays are
shared in place. -/
def closeAll : List Frame → List Frame
  | [] => []
  | f :: rest => [rest.foldl closeInto f]

/-- The artificial root `{ children: [], level: 0 }`. -/
def rootFrame : Frame := { level := 0, text := "", id := "", children := [] }

/-- `buildTree(headings)`: run the stack reduction and return
`root.children`. -/
def buildTree (headings : List Heading) : List TocNode :=
  match closeAll (headings.foldl pushHeading [rootFrame]) with
  | [f] => f.children
  | _ => []

/-- The specification's reading of the same construction: a heading's
children are exactly the maximal run of following headings with strictly
greater level — every node becomes a child of the nearest preceding node
with strictly lower level. Defined for comparison with `buildTree`. -/
def specForest : List Heading → List TocNode
  | [] => []
  | h :: rest =>
    .node (levelOf h.tag) h.textContent.trim h.id
        (specForest (rest.takeWhile (fun g => levelOf h.tag < levelOf g.tag)))
      :: specForest (rest.dropWhile (fun g => levelOf h.tag < levelOf g.tag))
  termination_by hs => hs.length
  decreasing_by
    · simpa using Nat.lt_succ_of_le (List.takeWhile_sublist _).length_le
    · simpa using Nat.lt_succ_of_le (List.dropWhile_sublist _).length_le

/-- Level of a finished node. -/
def TocNode.level : TocNode → Nat
  | .node l _ _ _ => l

/-- Children of a finished node. -/
def TocNode.children : TocNode → List TocNode
  | .node _ _ _ c => c

/-- Number of children of a finished node. -/
def TocNode.childCount : TocNode → Nat
  | .node _ _ _ c => c.length

/-- Levels of the children of a finished node, in order. -/
def TocNode.childLevels : TocNode → List Nat
  | .node _ _ _ c => c.map TocNode.level

theorem specForest_nil : specForest [] = [] := by
  rw [specForest.eq_def]

theorem specForest_cons (h : Heading) (rest : List Heading) :
    specForest (h :: rest)
      = .node (levelOf h.tag) h.textContent.trim h.id
          (specForest
            (rest.takeWhile (fun g => levelOf h.tag < levelOf g.tag)))
        :: specForest
            (rest.dropWhile (fun g => levelOf h.tag < levelOf g.tag)) := by
  rw [specForest.eq_def]

/-- Every heading maps to a positive level, so the level-0 root frame is
never popped. -/
theorem levelOf_pos (tag : String) : 0 < levelOf tag := by
  unfold levelOf LEVELS
  repeat' split
  all_goals simp

/-- The level of the bottom frame of a stack. -/
def lastLevel (st : List Frame) : Nat := (st.getLastD rootFrame).level

theorem closeInto_level (f g : Frame) : (closeInto f g).level = g.level := rfl

theorem lastLevel_cons_cons (x y : Frame) (rest : List Frame) :
    lastLevel (x :: y :: rest) = lastLevel (y :: rest) := by
  unfold lastLevel
  simp only [List.getLastD_cons]

/-- The bottom level only depends on the level of the head when the tail is
empty, so closing the top frame into the next preserves it. -/
theorem lastLevel_closeInto (f g : Frame) (rest : List Frame) :
    lastLevel (closeInto f g :: rest) = lastLevel (g :: rest) := by
  cases rest with
  | nil => exact closeInto_level f g
  | cons r t =>
      rw [lastLevel_cons_cons, lastLevel_cons_cons]

theorem popToAux_ne_nil (lvl : Nat) :
    ∀ (rest : List Frame) (f : Frame), popToAux lvl f rest ≠ [] := by
  intro rest
  induction rest with
  | nil => intro f; simp [popToAux]
  | cons g t ih =>
      intro f
      unfold popToAux
      split
      · exact ih (closeInto f g)
      · simp

theorem popToAux_lastLevel (lvl : Nat) :
    ∀ (rest : List Frame) (f : Frame),
      lastLevel (popToAux lvl f rest) = lastLevel (f :: rest) := by
  intro rest
  induction rest with
  | nil => intro f; rfl
  | cons g t ih =>
      intro f
      unfold popToAux
      split
      · rw [ih (closeInto f g), lastLevel_closeInto, lastLevel_cons_cons]
      · rfl

/-- Frames strictly below the pop target are untouched by the pop loop. -/
theorem popToAux_append (lvl : Nat) :
    ∀ (rest : List Frame) (f : Frame) (S : List Frame),
      lastLevel (f :: rest) < lvl →
      popToAux lvl f (rest ++ S) = popToAux lvl f rest ++ S := by
  intro rest
  induction rest with
  | nil =>
      intro f S hlast
      have hfl : lastLevel [f] = f.level := by
        simp [lastLevel]
      have hf : ¬ lvl ≤ f.level := by
        rw [hfl] at hlast
        omega
      cases S with
      | nil => simp [popToAux]
      | cons s S' => simp [popToAux, hf]
  | cons g t ih =>
      intro f S hlast
      show popToAux lvl f (g :: (t ++ S)) = _
      unfold popToAux
      split
      · rw [ih (closeInto f g) S]
        rw [lastLevel_closeInto]
        rwa [lastLevel_cons_cons] at hlast
      · simp

/-- The pop loop never lowers any frame below the smallest level present. -/
theorem popToAux_levels (lvl c : Nat) :
    ∀ (rest : List Frame) (f : Frame),
      (∀ fr ∈ f :: rest, c ≤ fr.level) →
      ∀ fr ∈ popToAux lvl f rest, c ≤ fr.level := by
  intro rest
  induction rest with
  | nil =>
      intro f hf fr hfr
      simp only [popToAux, List.mem_singleton] at hfr
      exact hfr ▸ hf f (List.mem_cons_self f [])
  | cons g t ih =>
      intro f hf fr hfr
      unfold popToAux at hfr
      split at hfr
      · refine ih (closeInto f g) ?_ fr hfr
        intro x hx
        rcases List.mem_cons.mp hx with rfl | hx
        · show c ≤ (closeInto f g).level
          rw [closeInto_level]
          exact hf g (List.mem_cons_of_mem f (List.mem_cons_self g t))
        · exact hf x (List.mem_cons_of_mem f (List.mem_cons_of_mem g hx))
      · exact hf fr hfr

/-- When every frame above the bottom one is at or above the pop target and
the bottom frame is below it, the pop loop closes the whole stack. -/
theorem popToAux_closes (lvl : Nat) :
    ∀ (rest : List Frame) (f g : Frame),
      (∀ fr ∈ f :: rest, lvl ≤ fr.level) → g.level < lvl →
      popToAux lvl f (rest ++ [g]) = closeAll (f :: rest ++ [g]) := by
  intro rest
  induction rest with
  | nil =>
      intro f g hf hg
      have : lvl ≤ f.level := hf f (List.mem_cons_self f [])
      have hng : ¬ lvl ≤ g.level := by omega
      simp [popToAux, closeAll, this, hng]
  | cons r t ih =>
      intro f g hf hg
      show popToAux lvl f (r :: (t ++ [g])) = _
      unfold popToAux
      rw [if_pos (hf f (List.mem_cons_self f _))]
      rw [ih (closeInto f r) g ?hfr hg]
      · rfl
      case hfr =>
        intro x hx
        rcases List.mem_cons.mp hx with rfl | hx
        · show lvl ≤ (closeInto f r).level
          rw [closeInto_level]
          exact hf r (List.mem_cons_of_mem f (List.mem_cons_self r t))
        · exact hf x (List.mem_cons_of_mem f (List.mem_cons_of_mem r hx))

/-- Appending one more bottom frame turns the fully closed stack into one
more `closeInto`. -/
theorem closeAll_append_single (st : List Frame) (x g : Frame)
    (h : closeAll st = [x]) :
    closeAll (st ++ [g]) = [closeInto x g] := by
  cases st with
  | nil => simp [closeAll] at h
  | cons f rest =>
      simp only [closeAll, List.cons.injEq, and_true] at h
      simp only [List.cons_append, closeAll, List.foldl_append, h,
        List.foldl_cons, List.foldl_nil]

/-- The open frame pushed for a heading. -/
def openFrame (h : Heading) : Frame :=
  { level := levelOf h.tag, text := h.textContent.trim, id := h.id,
    children := [] }

theorem pushHeading_eq (st : List Frame) (h : Heading) :
    pushHeading st h = openFrame h :: popTo (levelOf h.tag) st := rfl

theorem lastLevel_cons_of_ne_nil (x : Frame) {rest : List Frame}
    (h : rest ≠ []) : lastLevel (x :: rest) = lastLevel rest := by
  cases rest with
  | nil => exact absurd rfl h
  | cons y t => exact lastLevel_cons_cons x y t

theorem foldl_push_ne_nil :
    ∀ (hs : List Heading) (st : List Frame), st ≠ [] →
      List.foldl pushHeading st hs ≠ [] := by
  intro hs
  induction hs with
  | nil => intro st hne; exact hne
  | cons h t ih =>
      intro st _
      exact ih (pushHeading st h) (by simp [pushHeading_eq])

/-- Frames strictly below every pushed heading are carried along untouched
by the whole run. -/
theorem foldl_push_split :
    ∀ (hs : List Heading) (st S : List Frame), st ≠ [] →
      (∀ h ∈ hs, lastLevel st < levelOf h.tag) →
      List.foldl pushHeading (st ++ S) hs
        = List.foldl pushHeading st hs ++ S := by
  intro hs
  induction hs with
  | nil => intro st S _ _; rfl
  | cons h t ih =>
      intro st S hne hlv
      cases st with
      | nil => exact absurd rfl hne
      | cons f rest =>
          have hlast : lastLevel (f :: rest) < levelOf h.tag :=
            hlv h (List.mem_cons_self h t)
          have hpush : pushHeading ((f :: rest) ++ S) h
              = pushHeading (f :: rest) h ++ S := by
            rw [pushHeading_eq, pushHeading_eq]
            show openFrame h :: popToAux (levelOf h.tag) f (rest ++ S) = _
            rw [popToAux_append (levelOf h.tag) rest f S hlast]
            rfl
          show List.foldl pushHeading (pushHeading ((f :: rest) ++ S) h) t = _
          rw [hpush]
          refine ih (pushHeading (f :: rest) h) S (by simp [pushHeading_eq])
            ?_
          intro g hg
          rw [pushHeading_eq]
          show lastLevel (openFrame h :: popToAux (levelOf h.tag) f rest) < _
          rw [lastLevel_cons_of_ne_nil _ (popToAux_ne_nil _ rest f),
            popToAux_lastLevel]
          exact hlv g (List.mem_cons_of_mem h hg)

/-- No frame of the run drops below a bound respected by the initial stack
and by every pushed heading. -/
theorem foldl_push_levels (c : Nat) :
    ∀ (hs : List Heading) (st : List Frame),
      (∀ fr ∈ st, c ≤ fr.level) → (∀ h ∈ hs, c ≤ levelOf h.tag) →
      ∀ fr ∈ List.foldl pushHeading st hs, c ≤ fr.level := by
  intro hs
  induction hs with
  | nil => intro st hst _ fr hfr; exact hst fr hfr
  | cons h t ih =>
      intro st hst hh fr hfr
      refine ih (pushHeading st h) ?_
        (fun g hg => hh g (List.mem_cons_of_mem h hg)) fr hfr
      intro x hx
      rw [pushHeading_eq] at hx
      rcases List.mem_cons.mp hx with rfl | hx
      · exact hh h (List.mem_cons_self h t)
      · cases st with
        | nil => simp [popTo] at hx
        | cons f rest => exact popToAux_levels _ c rest f hst x hx

theorem dropWhile_head_false {α : Type} (p : α → Bool) :
    ∀ (l : List α) (a : α) (l' : List α),
      l.dropWhile p = a :: l' → p a = false := by
  intro l
  induction l with
  | nil => intro a l' h; simp [List.dropWhile] at h
  | cons x xs ih =>
      intro a l' h
      rw [List.dropWhile_cons] at h
      split at h
      · exact ih a l' h
      · rename_i hx
        cases h
        simpa using hx

/-- Core invariant of the stack reduction: running the heading loop over a
stack holding one open frame strictly below every heading level, then
closing, extends that frame's children by exactly the specification forest
of the headings. -/
theorem closeAll_push_run :
    ∀ (n : Nat) (hs : List Heading), hs.length ≤ n →
      ∀ f : Frame, (∀ h ∈ hs, f.level < levelOf h.tag) →
      closeAll (List.foldl pushHeading [f] hs)
        = [{ f with children := f.children ++ specForest hs }] := by
  intro n
  induction n with
  | zero =>
      intro hs hlen f _
      have hnil : hs = [] :=
        List.eq_nil_of_length_eq_zero (Nat.le_zero.mp hlen)
      subst hnil
      cases f
      simp [closeAll, specForest_nil]
  | succ n ih =>
      intro hs hlen f hlv
      cases hs with
      | nil =>
          cases f
          simp [closeAll, specForest_nil]
      | cons h t =>
          have hlf : f.level < levelOf h.tag := hlv h (List.mem_cons_self h t)
          have hlt : t.length ≤ n := by simpa using hlen
          set kids := t.takeWhile (fun g => levelOf h.tag < levelOf g.tag)
            with hkids
          set after := t.dropWhile (fun g => levelOf h.tag < levelOf g.tag)
            with hafterDef
          have hkids_mem : ∀ g ∈ kids, levelOf h.tag < levelOf g.tag := by
            intro g hg
            rw [hkids] at hg
            simpa using List.mem_takeWhile_imp hg
          have hkids_len : kids.length ≤ n :=
            le_trans (hkids ▸ (List.takeWhile_sublist _).length_le) hlt
          have hafter_len : after.length ≤ n :=
            le_trans (hafterDef ▸ (List.dropWhile_sublist _).length_le) hlt
          have hafter_sub : ∀ g ∈ after, g ∈ t := by
            intro g hg
            exact (List.dropWhile_sublist _).subset (hafterDef ▸ hg)
          have hsplitT : t = kids ++ after := by
            rw [hkids, hafterDef, List.takeWhile_append_dropWhile]
          have hA : List.foldl pushHeading [f] (h :: t)
              = List.foldl pushHeading (openFrame h :: [f]) t := rfl
          have hC : List.foldl pushHeading (openFrame h :: [f]) kids
              = List.foldl pushHeading [openFrame h] kids ++ [f] := by
            refine foldl_push_split kids [openFrame h] [f] (by simp) ?_
            intro g hg
            have : lastLevel [openFrame h] = levelOf h.tag := by
              simp [lastLevel, openFrame]
            rw [this]
            exact hkids_mem g hg
          have hK : closeAll (List.foldl pushHeading [openFrame h] kids)
              = [{ level := levelOf h.tag, text := h.textContent.trim,
                   id := h.id, children := specForest kids }] := by
            have := ih kids hkids_len (openFrame h) hkids_mem
            simpa [openFrame] using this
          have hKlv : ∀ fr ∈ List.foldl pushHeading [openFrame h] kids,
              levelOf h.tag ≤ fr.level := by
            refine foldl_push_levels (levelOf h.tag) kids [openFrame h] ?_ ?_
            · intro fr hfr
              rcases List.mem_singleton.mp hfr with rfl
              exact le_refl _
            · exact fun g hg => le_of_lt (hkids_mem g hg)
          have hKne : List.foldl pushHeading [openFrame h] kids ≠ [] :=
            foldl_push_ne_nil kids [openFrame h] (by simp)
          have hgoalL : closeAll (List.foldl pushHeading [f] (h :: t))
              = closeAll (List.foldl pushHeading
                  (List.foldl pushHeading [openFrame h] kids ++ [f]) after) := by
            rw [hA]
            conv_lhs => rw [hsplitT]
            rw [List.foldl_append, hC]
          rw [hgoalL, specForest_cons, ← hkids, ← hafterDef]
          cases hafter : after with
          | nil =>
              simp only [List.foldl_nil]
              rw [closeAll_append_single _ _ f hK, specForest_nil]
              simp [closeInto]
          | cons a after' =>
              have hla : levelOf a.tag ≤ levelOf h.tag := by
                have := dropWhile_head_false
                  (fun g => decide (levelOf h.tag < levelOf g.tag)) t a after'
                  (by rw [← hafterDef, hafter])
                simpa using this
              have ha_after : a ∈ after := by
                rw [hafter]
                exact List.mem_cons_self a after'
              have ha_t : a ∈ t := hafter_sub a ha_after
              have haf : f.level < levelOf a.tag :=
                hlv a (List.mem_cons_of_mem h ha_t)
              have hpop : popTo (levelOf a.tag)
                  (List.foldl pushHeading [openFrame h] kids ++ [f])
                  = [closeInto { level := levelOf h.tag,
                                 text := h.textContent.trim, id := h.id,
                                 children := specForest kids } f] := by
                cases hKsh : List.foldl pushHeading [openFrame h] kids with
                | nil => exact absurd hKsh hKne
                | cons fK restK =>
                    show popToAux (levelOf a.tag) fK (restK ++ [f]) = _
                    rw [popToAux_closes (levelOf a.tag) restK fK f ?frames haf]
                    · exact closeAll_append_single (fK :: restK) _ f
                        (hKsh ▸ hK)
                    case frames =>
                      intro fr hfr
                      exact le_trans hla (hKlv fr (hKsh ▸ hfr))
              have hB : List.foldl pushHeading
                  (List.foldl pushHeading [openFrame h] kids ++ [f])
                    (a :: after')
                  = List.foldl pushHeading
                      [closeInto { level := levelOf h.tag,
                                   text := h.textContent.trim, id := h.id,
                                   children := specForest kids } f]
                      (a :: after') := by
                show List.foldl pushHeading (pushHeading _ a) after' = _
                rw [pushHeading_eq, hpop]
                rfl
              rw [hB]
              have hihres := ih (a :: after') (hafter ▸ hafter_len)
                (closeInto { level := levelOf h.tag,
                             text := h.textContent.trim, id := h.id,
                             children := specForest kids } f)
                (fun g hg => hlv g (List.mem_cons_of_mem h
                  (hafter_sub g (by rw [hafter]; exact hg))))
              rw [hihres]
              simp [closeInto]

/-- The stack reduction computes exactly the nearest-preceding-lower-level
forest: each node's children are the maximal run of following headings with
strictly greater level. -/
theorem buildTree_eq_specForest (hs : List Heading) :
    buildTree hs = specForest hs := by
  unfold buildTree
  rw [closeAll_push_run hs.length hs le_rfl rootFrame
    (fun h _ => levelOf_pos h.tag)]
  simp [rootFrame]

/-- The claim's example: headings with levels `[1, 2, 3, 2, 1]`. -/
def claim2Example : List Heading :=
  [{ tag := "H1", textContent := "Alpha", id := "alpha" },
   { tag := "H2", textContent := "Beta", id := "beta" },
   { tag := "H3", textContent := "Gamma", id := "gamma" },
   { tag := "H2", textContent := "Delta", id := "delta" },
   { tag := "H1", textContent := "Epsilon", id := "epsilon" }]

/-- C2 counterexample: for levels `[1, 2, 3, 2, 1]` the claim says the
forest's two top-level nodes have 1 and 0 children; the code attaches both
level-2 headings to the first level-1 heading, so the child counts are
`[2, 0]`, not `[1, 0]`. -/
theorem claim2_counterexample :
    ¬ ((buildTree claim2Example).map TocNode.childCount = [1, 0]) := by
  decide

/-- C2 (amended): `buildTree` maps any flat document-order heading list to
the forest in which each node is a child of the nearest preceding node of
strictly lower level; for input levels `[1, 2, 3, 2, 1]` the forest has two
top-level nodes, the first top-level node has exactly two children (levels
2 and 2) of which the first has exactly one child (level 3) and the second
none, and the second top-level node has no children. -/
theorem claim2_buildTree_stack_reduction :
    (∀ hs : List Heading, buildTree hs = specForest hs) ∧
    (buildTree claim2Example).map TocNode.level = [1, 1] ∧
    (buildTree claim2Example).map TocNode.childLevels = [[2, 2], []] ∧
    (buildTree claim2Example).map
        (fun n => n.children.map TocNode.childLevels) = [[[3], []], []] :=
  ⟨buildTree_eq_specForest, by decide, by decide, by decide⟩

end MermaidHelper
